import Mathlib

/-!
# A verification of the pattern engine of `sift` (src/sift.cpp)

`sift` sorts items from a source folder into subfolders of a destination
"sieve" folder whose names encode word-group patterns.  This file gives a
shallow embedding of the pattern-compilation (`Sifter::setSieve`), the
matcher and the action dispatch (`Sifter::siftItem`), and proves or refutes
the specification's claims about them.

Strings are modelled as `List Char`; `boost` string algorithms are modelled
character by character; the C++ `int` score is modelled as `Int` (for the
inputs produced by the parser the subtraction `length - wordCount` never
goes below zero — proved below — so no overflow or unsigned wrap-around
of the C++ mixed `int`/`size_t` arithmetic is observable).
-/

namespace Sift

/-- Strings, modelled as lists of characters. -/
abbrev Str := List Char

/-- Whitespace removed by `boost::algorithm::trim` (classic locale `isspace`). -/
def isSpaceChar (c : Char) : Bool :=
  c == ' ' || c == '\t' || c == '\n' || c == '\x0b' || c == '\x0c' || c == '\r'

/-- Word-group delimiters of `setSieve`: `boost::is_any_of("(),")`. -/
def isGroupDelim (c : Char) : Bool := c == '(' || c == ')' || c == ','

/-- Word delimiter inside one word-group: `boost::is_any_of(" ")`. -/
def isWordDelim (c : Char) : Bool := c == ' '

/-- `ba::to_lower` in the classic locale: ASCII-only lower-casing
(`Char.toLower` lowers exactly `A`–`Z`). -/
def toLowerStr (s : Str) : Str := s.map Char.toLower

/-- `ba::trim`: drop leading and trailing whitespace. -/
def trimL (s : Str) : Str :=
  ((s.dropWhile isSpaceChar).reverse.dropWhile isSpaceChar).reverse

/-- `boost::algorithm::split` with `token_compress_on`, as a character-level
state machine.  `acc` holds the token being accumulated (reversed), `inDelim`
records whether the previous character was a delimiter (adjacent delimiters
are compressed into one).  A delimiter at the very start or end of the input
still produces an empty boundary token, exactly as boost does. -/
def splitCompressAux (p : Char → Bool) : List Char → List Char → Bool → List Str
  | [], acc, _ => [acc.reverse]
  | c :: cs, acc, inDelim =>
    if p c then
      if inDelim then splitCompressAux p cs acc true
      else acc.reverse :: splitCompressAux p cs [] true
    else splitCompressAux p cs (c :: acc) false

/-- `ba::split(result, s, boost::is_any_of(...), boost::token_compress_on)`. -/
def splitCompress (p : Char → Bool) (s : Str) : List Str := splitCompressAux p s [] false

/-- One entry of `vMapping`: `pair<int, pair<int, vector<string>>>` =
(score, (index into the sorted path vector, word-group)). -/
abbrev TMapping := Int × Nat × List Str

/-- The mappings contributed by the sieve entry with index `i` and raw folder
name `name`: the body of the outer `for` loop of `Sifter::setSieve`.  The name
is trimmed and lower-cased, split into word-groups at `(`, `)`, `,`; each
group is trimmed and, when its text is non-empty (`if (iScore)`), split into
words at spaces and stored with score `length - wordCount`. -/
def parseMappings (i : Nat) (name : Str) : List TMapping :=
  (splitCompress isGroupDelim (toLowerStr (trimL name))).filterMap fun sWordGroup₀ =>
    let sWordGroup := trimL sWordGroup₀
    if sWordGroup.length ≠ 0 then
      let vsWord := splitCompress isWordDelim sWordGroup
      some ((sWordGroup.length : Int) - (vsWord.length : Int), i, vsWord)
    else none

/-- `vPath` after `sort(vPath.begin(), vPath.end())`: the destination folder
names in sorted order (all entries share the sieve-path prefix, so comparing
`fs::path`s coincides with comparing the folder names). -/
def sortedPaths (names : List Str) : List Str := List.insertionSort (· ≤ ·) names

/-- `vMapping` before the final sort: all mappings of all (sorted) sieve
entries, in discovery order. -/
def vMappingOf (names : List Str) : List TMapping :=
  (sortedPaths names).enum.flatMap fun p => parseMappings p.1 p.2

/-- The lexicographic order used by `sort(vMapping.begin(), vMapping.end())`:
`std::pair`/`std::vector`/`std::string` compare lexicographically, so mappings
are ordered by score, then path index, then word-group content. -/
def mapLe (a b : TMapping) : Prop :=
  a.1 < b.1 ∨ (a.1 = b.1 ∧ (a.2.1 < b.2.1 ∨ (a.2.1 = b.2.1 ∧ a.2.2 ≤ b.2.2)))

instance : DecidableRel mapLe := fun a b => by
  unfold mapLe; infer_instance

/-- `Sifter::setSieve`, as a function from the list of destination folder
names (the directory entries of the sieve folder) to the final `vMapping`. -/
def setSieve (names : List Str) : List TMapping :=
  List.insertionSort mapLe (vMappingOf names)

/-- `sItemName.find(needle) != string::npos`: `needle` occurs as a contiguous
substring, checked at every start position. -/
def findSub (needle : Str) : Str → Bool
  | [] => needle.isPrefixOf []
  | c :: rest => needle.isPrefixOf (c :: rest) || findSub needle rest

/-- The per-word check of the inner matcher loop of `Sifter::siftItem`:
a word whose first character is `!` is a negated match (the item name must
not contain `substr(1)`), any other word is a normal match.  (For the empty
word, C++ `sWord[0]` reads the terminating NUL, which is not `!`, and
`find("")` succeeds; the wildcard pattern below agrees.) -/
def wordOk (sItemName : Str) (sWord : Str) : Bool :=
  if sWord.head? = some '!' then !(findSub sWord.tail sItemName)
  else findSub sWord sItemName

/-- The inner `for (auto& sWord : ...)` loop of `Sifter::siftItem`: sets
`bFound = true`, then scans the words and breaks to `false` at the first
failing word. -/
def wordScan (sItemName : Str) : List Str → Bool
  | [] => true
  | w :: ws => if wordOk sItemName w then wordScan sItemName ws else false

/-- The redundant outer `for (auto& vsWordGroup : ...)` loop of
`Sifter::siftItem`: starting from `bFound = false`, it re-runs the full inner
scan of the same word list once per word of the group, each iteration
overwriting `bFound` with the same value. -/
def groupFound (sItemName : Str) (g : List Str) : Bool :=
  g.foldl (fun _ _ => wordScan sItemName g) false

/-- The mode flags of `Sifter` that `siftItem` dispatches on. -/
structure Config where
  bMove : Bool
  bLink : Bool
  bCopy : Bool
  bTest : Bool

/-- `Sifter::Sifter()`: all flags start `false`. -/
def initConfig : Config := ⟨false, false, false, false⟩

/-- `Sifter::setMove`. -/
def setMove (c : Config) : Config :=
  { c with bMove := true, bLink := false, bCopy := false, bTest := false }

/-- `Sifter::setLink`. -/
def setLink (c : Config) : Config :=
  { c with bLink := true, bMove := false, bCopy := false, bTest := false }

/-- `Sifter::setCopy`. -/
def setCopy (c : Config) : Config :=
  { c with bCopy := true, bMove := false, bLink := false, bTest := false }

/-- `Sifter::setTest`. -/
def setTest (c : Config) : Config :=
  { c with bTest := true, bMove := false, bLink := false, bCopy := false }

/-- `main` applies `setTest` first (the default) and then the flag of the
selected mode. -/
def moveConfig : Config := setMove (setTest initConfig)

def linkConfig : Config := setLink (setTest initConfig)

def copyConfig : Config := setCopy (setTest initConfig)

def testConfig : Config := setTest initConfig

/-- The observable outcomes of `Sifter::siftItem` for one item: a move into
path `vPath[i]`, a hardlink/recursive-link into path `vPath[i]`, or the
`"No match"` test-mode report. -/
inductive SiftAction where
  | moveTo (i : Nat)
  | linkTo (i : Nat)
  | reportNoMatch
deriving DecidableEq, Repr

/-- The main loop of `Sifter::siftItem` over `vMapping`, with the running
`bNoMatch` flag.  On a satisfied group: in move mode the move is performed
and the function returns at once; in link mode the hardlink is performed and
the scan continues; otherwise (copy or test mode) the scan just continues
with `bNoMatch` cleared.  After the loop, test mode reports unmatched items. -/
def siftLoop (cfg : Config) (sItemName : Str) : List TMapping → Bool → List SiftAction
  | [], bNoMatch => if cfg.bTest && bNoMatch then [SiftAction.reportNoMatch] else []
  | m :: rest, bNoMatch =>
    if groupFound sItemName m.2.2 then
      if cfg.bMove then [SiftAction.moveTo m.2.1]
      else if cfg.bLink then SiftAction.linkTo m.2.1 :: siftLoop cfg sItemName rest false
      else siftLoop cfg sItemName rest false
    else siftLoop cfg sItemName rest bNoMatch

/-- `Sifter::siftItem`: lower-case the item's file name, then scan `vMapping`. -/
def siftItem (cfg : Config) (table : List TMapping) (rawName : Str) : List SiftAction :=
  siftLoop cfg (toLowerStr rawName) table true

/-! ## Helper lemmas about the splitter and the trimmer -/

/-- The splitter always produces at least one token. -/
theorem splitCompressAux_ne_nil (p : Char → Bool) :
    ∀ (s acc : List Char) (inDelim : Bool), splitCompressAux p s acc inDelim ≠ [] := by
  intro s
  induction s with
  | nil => intro acc inDelim; simp [splitCompressAux]
  | cons c cs ih =>
    intro acc inDelim
    simp only [splitCompressAux]
    by_cases hc : p c
    · by_cases hd : inDelim <;> simp [hc, hd, ih]
    · simp [hc, ih]

/-- Tokens never absorb delimiter characters: the total length of the tokens is
bounded by the input length plus the pending accumulator. -/
theorem sum_length_splitCompressAux (p : Char → Bool) :
    ∀ (s acc : List Char) (inDelim : Bool),
      ((splitCompressAux p s acc inDelim).map List.length).sum ≤ s.length + acc.length := by
  intro s
  induction s with
  | nil => intro acc inDelim; simp [splitCompressAux]
  | cons c cs ih =>
    intro acc inDelim
    simp only [splitCompressAux]
    by_cases hc : p c
    · rw [if_pos hc]
      by_cases hd : inDelim = true
      · rw [if_pos hd]
        have := ih acc true
        simp only [List.length_cons]
        omega
      · rw [if_neg hd]
        simp only [List.map_cons, List.sum_cons, List.length_reverse]
        have := ih [] true
        simp only [List.length_nil, List.length_cons] at this ⊢
        omega
    · rw [if_neg hc]
      have := ih (c :: acc) false
      simp only [List.length_cons] at this ⊢
      omega

/-- A list of non-empty tokens is no longer than the total length of its tokens. -/
theorem length_le_sum_length {L : List Sift.Str} (h : ∀ t ∈ L, t ≠ []) :
    L.length ≤ (L.map List.length).sum := by
  induction L with
  | nil => simp
  | cons t ts ih =>
    have ht : t ≠ [] := h t (List.mem_cons_self t ts)
    have h1 : 1 ≤ t.length := by
      cases t with
      | nil => exact absurd rfl ht
      | cons a as => simp [List.length_cons]
    have := ih fun u hu => h u (List.mem_cons_of_mem t hu)
    simp only [List.map_cons, List.sum_cons, List.length_cons]
    omega

/-- If the input neither starts nor ends with a delimiter (and the pending
accumulator is compatible with the state), every produced token is non-empty. -/
theorem tokens_ne_nil (p : Char → Bool) :
    ∀ (s acc : List Char) (inDelim : Bool),
      (s = [] → acc ≠ []) →
      (∀ c, s.getLast? = some c → p c = false) →
      (acc = [] → inDelim = false → ∃ c, s.head? = some c ∧ p c = false) →
      ∀ t ∈ splitCompressAux p s acc inDelim, t ≠ [] := by
  intro s
  induction s with
  | nil =>
    intro acc inDelim h1 _ _ t ht
    simp only [splitCompressAux, List.mem_singleton] at ht
    subst ht
    simpa using h1 rfl
  | cons c cs ih =>
    intro acc inDelim h1 h2 h3 t ht
    have hlast : ∀ d, cs.getLast? = some d → p d = false := by
      intro d hd
      apply h2
      cases cs with
      | nil => simp at hd
      | cons e es => simpa [List.getLast?_cons_cons] using hd
    simp only [splitCompressAux] at ht
    by_cases hc : p c = true
    · have hcs : cs ≠ [] := by
        intro hnil
        subst hnil
        have hpc := h2 c (by simp)
        rw [hc] at hpc
        simp at hpc
      by_cases hd : inDelim = true
      · rw [if_pos hc, if_pos hd] at ht
        exact ih acc true (fun h => absurd h hcs) hlast (by intro _ h; simp at h) t ht
      · rw [if_pos hc, if_neg hd] at ht
        have hacc : acc ≠ [] := by
          intro haccnil
          obtain ⟨e, he, hpe⟩ := h3 haccnil (by simpa using hd)
          simp only [List.head?_cons, Option.some.injEq] at he
          rw [← he] at hpe
          rw [hc] at hpe
          simp at hpe
        rcases List.mem_cons.mp ht with hth | hts
        · subst hth; simpa using hacc
        · exact ih [] true (fun h => absurd h hcs) hlast (by intro _ h; simp at h) t hts
    · rw [if_neg hc] at ht
      exact ih (c :: acc) false (fun _ => by simp) hlast
        (by intro h _; simp at h) t ht

/-- The head of `dropWhile p` never satisfies `p`. -/
theorem head?_dropWhile_false {p : Char → Bool} {l : List Char} {c : Char}
    (h : (l.dropWhile p).head? = some c) : p c = false := by
  have := List.head?_dropWhile_not p l
  rw [h] at this
  exact this

/-- A trimmed string does not end in whitespace. -/
theorem trimL_getLast? {s : Sift.Str} {c : Char}
    (h : (Sift.trimL s).getLast? = some c) : Sift.isSpaceChar c = false := by
  unfold Sift.trimL at h
  rw [List.getLast?_reverse] at h
  exact head?_dropWhile_false h

/-- A trimmed string does not start with whitespace. -/
theorem trimL_head? {s : Sift.Str} {c : Char}
    (h : (Sift.trimL s).head? = some c) : Sift.isSpaceChar c = false := by
  unfold Sift.trimL at h
  rw [List.head?_reverse] at h
  set u := (s.dropWhile Sift.isSpaceChar).reverse with hu
  have hsuf : u.dropWhile Sift.isSpaceChar <:+ u := List.dropWhile_suffix _
  obtain ⟨pre, hpre⟩ := hsuf
  have hne : u.dropWhile Sift.isSpaceChar ≠ [] := by
    intro hnil; rw [hnil] at h; simp at h
  have : u.getLast? = some c := by
    rw [← hpre, List.getLast?_append, h]
    rfl
  rw [hu, List.getLast?_reverse] at this
  exact head?_dropWhile_false this

/-- Whitespace subsumes the word delimiter: a non-whitespace character is not
a word delimiter. -/
theorem isWordDelim_eq_false {c : Char} (h : Sift.isSpaceChar c = false) :
    Sift.isWordDelim c = false := by
  by_cases hc : c = ' '
  · subst hc; simp [Sift.isSpaceChar] at h
  · simp [Sift.isWordDelim, hc]

/-- The words obtained from a non-empty trimmed word-group are all non-empty. -/
theorem words_ne_nil {seg : Sift.Str} (h : Sift.trimL seg ≠ []) :
    ∀ t ∈ Sift.splitCompress Sift.isWordDelim (Sift.trimL seg), t ≠ [] := by
  apply tokens_ne_nil
  · intro hnil; exact absurd hnil h
  · intro c hc; exact isWordDelim_eq_false (trimL_getLast? hc)
  · intro _ _
    cases hh : (Sift.trimL seg).head? with
    | none => exact absurd (List.head?_eq_none_iff.mp hh) h
    | some c => exact ⟨c, rfl, isWordDelim_eq_false (trimL_head? hh)⟩

/-! ## Helper lemmas about the matcher -/

/-- `find(...) != npos` agrees with the substring (contiguous sublist) relation. -/
theorem findSub_iff (needle hay : Sift.Str) :
    Sift.findSub needle hay = true ↔ needle <:+: hay := by
  induction hay with
  | nil =>
    simp only [Sift.findSub]
    constructor
    · intro h
      have :=  List.isPrefixOf_iff_prefix.mp h
      exact this.isInfix
    · intro h
      have : needle = [] := by
        have := h.sublist
        simpa using List.sublist_nil.mp this
      subst this
      rfl
  | cons c rest ih =>
    simp only [Sift.findSub, Bool.or_eq_true, ih, List.infix_cons_iff]
    constructor
    · rintro (h | h)
      · exact Or.inl ( List.isPrefixOf_iff_prefix.mp h)
      · exact Or.inr h
    · rintro (h | h)
      · exact Or.inl ( List.isPrefixOf_iff_prefix.mpr h)
      · exact Or.inr h

/-- The inner word scan is the conjunction of the per-word checks. -/
theorem wordScan_eq_all (sItemName : Sift.Str) :
    ∀ g : List Sift.Str, Sift.wordScan sItemName g = g.all (Sift.wordOk sItemName) := by
  intro g
  induction g with
  | nil => rfl
  | cons w ws ih =>
    simp only [Sift.wordScan, List.all_cons, ih]
    by_cases h : Sift.wordOk sItemName w = true
    · rw [if_pos h, h, Bool.true_and]
    · rw [if_neg h]
      have : Sift.wordOk sItemName w = false := by
        cases hw : Sift.wordOk sItemName w
        · rfl
        · exact absurd hw h
      rw [this, Bool.false_and]

/-- Folding a constant function over a non-empty list yields that constant. -/
theorem foldl_const {α : Type} (k : Bool) :
    ∀ (l : List α) (b : Bool), l ≠ [] → l.foldl (fun _ _ => k) b = k := by
  intro l
  induction l with
  | nil => intro b h; exact absurd rfl h
  | cons a as ih =>
    intro b _
    simp only [List.foldl_cons]
    cases as with
    | nil => rfl
    | cons a' as' => exact ih k (by simp)

/-- The redundant outer loop of the matcher computes, on every non-empty
word-group, exactly the single-pass conjunction of the word checks. -/
theorem groupFound_eq_all {sItemName : Sift.Str} {g : List Sift.Str} (h : g ≠ []) :
    Sift.groupFound sItemName g = g.all (Sift.wordOk sItemName) := by
  unfold Sift.groupFound
  rw [foldl_const _ g false h, wordScan_eq_all]

/-- Declarative reading of the conjunction of word checks: all positive words
occur in the item name and no negated word's remainder occurs in it. -/
theorem all_wordOk_iff (L : Sift.Str) (g : List Sift.Str) :
    g.all (Sift.wordOk L) = true ↔
      ((∀ w ∈ g, w.head? ≠ some '!' → w <:+: L) ∧
       (∀ w ∈ g, w.head? = some '!' → ¬ w.tail <:+: L)) := by
  rw [List.all_eq_true]
  constructor
  · intro h
    constructor
    · intro w hw hneg
      have hv := h w hw
      rw [Sift.wordOk, if_neg hneg] at hv
      exact (findSub_iff _ _).mp hv
    · intro w hw hneg hcontra
      have hv := h w hw
      rw [Sift.wordOk, if_pos hneg] at hv
      rw [(findSub_iff _ _).mpr hcontra] at hv
      simp at hv
  · rintro ⟨h1, h2⟩ w hw
    rw [Sift.wordOk]
    by_cases hn : w.head? = some '!'
    · rw [if_pos hn]
      have hf : Sift.findSub w.tail L = false := by
        cases hb : Sift.findSub w.tail L
        · rfl
        · exact absurd ((findSub_iff _ _).mp hb) (h2 w hw hn)
      rw [hf]
      rfl
    · rw [if_neg hn]
      exact (findSub_iff _ _).mpr (h1 w hw hn)

/-! ## Helper lemmas about the compiled pattern table -/

/-- The final sort does not change which mappings are stored. -/
theorem mem_setSieve_iff {names : List Sift.Str} {m : Sift.TMapping} :
    m ∈ Sift.setSieve names ↔ m ∈ Sift.vMappingOf names := by
  unfold Sift.setSieve
  exact (List.perm_insertionSort Sift.mapLe (Sift.vMappingOf names)).mem_iff

/-- Every stored mapping arises from a word-group segment with non-empty
trimmed text whose words are the space-split of that text and whose score is
the text length minus the word count. -/
theorem exists_seg_of_mem_setSieve {names : List Sift.Str} {m : Sift.TMapping}
    (h : m ∈ Sift.setSieve names) :
    ∃ seg : Sift.Str, Sift.trimL seg ≠ [] ∧
      m.2.2 = Sift.splitCompress Sift.isWordDelim (Sift.trimL seg) ∧
      m.1 = ((Sift.trimL seg).length : Int) - ((Sift.splitCompress Sift.isWordDelim (Sift.trimL seg)).length : Int) := by
  rw [mem_setSieve_iff] at h
  unfold Sift.vMappingOf at h
  rw [List.mem_flatMap] at h
  obtain ⟨p, _, hm⟩ := h
  unfold Sift.parseMappings at hm
  rw [List.mem_filterMap] at hm
  obtain ⟨seg, _, heq⟩ := hm
  refine ⟨seg, ?_⟩
  by_cases hlen : (Sift.trimL seg).length ≠ 0
  · rw [if_pos hlen] at heq
    have hne : Sift.trimL seg ≠ [] := by
      intro hnil
      exact hlen (by rw [hnil]; rfl)
    obtain rfl := Option.some.inj heq
    exact ⟨hne, rfl, rfl⟩
  · rw [if_neg hlen] at heq
    cases heq

/-! ## The total order used to sort the pattern table -/

theorem mapLe_trans : ∀ a b c : Sift.TMapping, Sift.mapLe a b → Sift.mapLe b c → Sift.mapLe a c := by
  rintro ⟨a1, a2, a3⟩ ⟨b1, b2, b3⟩ ⟨c1, c2, c3⟩ hab hbc
  simp only [Sift.mapLe] at hab hbc ⊢
  obtain h1 | ⟨e1, h1⟩ := hab <;> obtain h2 | ⟨e2, h2⟩ := hbc
  · exact Or.inl (lt_trans h1 h2)
  · exact Or.inl (e2 ▸ h1)
  · exact Or.inl (e1 ▸ h2)
  · refine Or.inr ⟨e1.trans e2, ?_⟩
    obtain g1 | ⟨f1, g1⟩ := h1 <;> obtain g2 | ⟨f2, g2⟩ := h2
    · exact Or.inl (lt_trans g1 g2)
    · exact Or.inl (f2 ▸ g1)
    · exact Or.inl (f1 ▸ g2)
    · exact Or.inr ⟨f1.trans f2, le_trans g1 g2⟩

theorem mapLe_total : ∀ a b : Sift.TMapping, Sift.mapLe a b ∨ Sift.mapLe b a := by
  rintro ⟨a1, a2, a3⟩ ⟨b1, b2, b3⟩
  simp only [Sift.mapLe]
  rcases lt_trichotomy a1 b1 with h1 | h1 | h1
  · exact Or.inl (Or.inl h1)
  · subst h1
    rcases lt_trichotomy a2 b2 with h2 | h2 | h2
    · exact Or.inl (Or.inr ⟨rfl, Or.inl h2⟩)
    · subst h2
      rcases le_total a3 b3 with h3 | h3
      · exact Or.inl (Or.inr ⟨rfl, Or.inr ⟨rfl, h3⟩⟩)
      · exact Or.inr (Or.inr ⟨rfl, Or.inr ⟨rfl, h3⟩⟩)
    · exact Or.inr (Or.inr ⟨rfl, Or.inl h2⟩)
  · exact Or.inr (Or.inl h1)

instance : IsTrans Sift.TMapping Sift.mapLe := ⟨mapLe_trans⟩

instance : IsTotal Sift.TMapping Sift.mapLe := ⟨mapLe_total⟩

/-- The splitter never returns an empty token list. -/
theorem splitCompress_ne_nil (p : Char → Bool) (s : Sift.Str) :
    Sift.splitCompress p s ≠ [] := by
  unfold Sift.splitCompress
  exact splitCompressAux_ne_nil p s [] false

/-- The total token length is bounded by the input length. -/
theorem sum_length_splitCompress (p : Char → Bool) (s : Sift.Str) :
    ((Sift.splitCompress p s).map List.length).sum ≤ s.length := by
  have := sum_length_splitCompressAux p s [] false
  simpa [Sift.splitCompress] using this

/-! ## Helper lemmas about the sift loop in each mode -/

/-- In move mode the loop performs exactly one move, for the first satisfied
mapping in table order, and nothing when no mapping is satisfied. -/
theorem siftLoop_move (L : Sift.Str) :
    ∀ (table : List Sift.TMapping) (b : Bool),
      Sift.siftLoop Sift.moveConfig L table b =
        match table.find? (fun m => Sift.groupFound L m.2.2) with
        | some m => [Sift.SiftAction.moveTo m.2.1]
        | none => [] := by
  intro table
  induction table with
  | nil =>
    intro b
    simp [Sift.siftLoop, Sift.moveConfig, Sift.setMove, Sift.setTest, Sift.initConfig]
  | cons m rest ih =>
    intro b
    simp only [Sift.siftLoop]
    have hM : Sift.moveConfig.bMove = true := rfl
    by_cases h : Sift.groupFound L m.2.2 = true
    · have hf : List.find? (fun x => Sift.groupFound L x.2.2) (m :: rest) = some m :=
        List.find?_cons_of_pos rest h
      rw [if_pos h, hf]
      simp only [hM]
      simp
    · have hf : List.find? (fun x => Sift.groupFound L x.2.2) (m :: rest) =
          List.find? (fun x => Sift.groupFound L x.2.2) rest :=
        List.find?_cons_of_neg rest h
      rw [if_neg h, hf, ih b]

/-- In link mode the loop performs one link per satisfied mapping, in table
order. -/
theorem siftLoop_link (L : Sift.Str) :
    ∀ (table : List Sift.TMapping) (b : Bool),
      Sift.siftLoop Sift.linkConfig L table b =
        (table.filter fun m => Sift.groupFound L m.2.2).map
          fun m => Sift.SiftAction.linkTo m.2.1 := by
  intro table
  induction table with
  | nil =>
    intro b
    simp [Sift.siftLoop, Sift.linkConfig, Sift.setLink, Sift.setTest, Sift.initConfig]
  | cons m rest ih =>
    intro b
    simp only [Sift.siftLoop]
    have hM : Sift.linkConfig.bMove = false := rfl
    have hL : Sift.linkConfig.bLink = true := rfl
    by_cases h : Sift.groupFound L m.2.2 = true
    · have hf : List.filter (fun x => Sift.groupFound L x.2.2) (m :: rest) =
          m :: List.filter (fun x => Sift.groupFound L x.2.2) rest :=
        List.filter_cons_of_pos h
      rw [if_pos h, hf, List.map_cons, ← ih false]
      simp only [hM, hL]
      simp
    · have hf : List.filter (fun x => Sift.groupFound L x.2.2) (m :: rest) =
          List.filter (fun x => Sift.groupFound L x.2.2) rest :=
        List.filter_cons_of_neg h
      rw [if_neg h, hf, ih b]

/-- In copy mode the loop performs no action at all: `siftItem` consults only
`bMove`, `bLink` and `bTest`, never `bCopy`. -/
theorem siftLoop_copy (L : Sift.Str) :
    ∀ (table : List Sift.TMapping) (b : Bool),
      Sift.siftLoop Sift.copyConfig L table b = [] := by
  intro table
  induction table with
  | nil =>
    intro b
    simp [Sift.siftLoop, Sift.copyConfig, Sift.setCopy, Sift.setTest, Sift.initConfig]
  | cons m rest ih =>
    intro b
    simp only [Sift.siftLoop]
    have hM : Sift.copyConfig.bMove = false := rfl
    have hL : Sift.copyConfig.bLink = false := rfl
    by_cases h : Sift.groupFound L m.2.2 = true
    · rw [if_pos h]
      simp only [hM, hL]
      simp [ih false]
    · rw [if_neg h, ih b]

/-! ## The claims -/

/-- C1 (code bug): the spec, the source comment (lines 90–96) and the help
text (lines 59–62) all state that higher-scored (more specific) patterns are
tried first, so that "hard science fiction epic" is routed to the folder
"Science Fiction (sci-fi, space opera)".  The code instead sorts `vMapping`
ascending and iterates it front to back, so the LOWEST-scored satisfied group
wins: against the sieve folders "Science Fiction (sci-fi, space opera)" and
"Science" (sorted path indices 1 and 0), the item satisfies the score-13
group `science fiction`, yet move mode moves it to path index 0, the folder
"Science".  This theorem evaluates the embedded code at that failing input. -/
theorem claim_C1 :
    Sift.sortedPaths ["Science Fiction (sci-fi, space opera)".toList, "Science".toList] =
      ["Science".toList, "Science Fiction (sci-fi, space opera)".toList] ∧
    Sift.setSieve ["Science Fiction (sci-fi, space opera)".toList, "Science".toList] =
      [((5 : Int), 1, ["sci-fi".toList]), ((6 : Int), 0, ["science".toList]),
       ((9 : Int), 1, ["space".toList, "opera".toList]),
       ((13 : Int), 1, ["science".toList, "fiction".toList])] ∧
    Sift.groupFound (Sift.toLowerStr "hard science fiction epic".toList)
      ["science".toList, "fiction".toList] = true ∧
    Sift.siftItem Sift.moveConfig
      (Sift.setSieve ["Science Fiction (sci-fi, space opera)".toList, "Science".toList])
      "hard science fiction epic".toList = [Sift.SiftAction.moveTo 0] := by
  decide

/-- C2, counterexample: in copy mode no action is performed even when the
item satisfies a pattern group — `siftItem` never consults `bCopy`.  Here the
item "science stuff" satisfies the single stored group of the sieve folder
"Science", yet copy mode produces no action. -/
theorem claim_C2_counterexample :
    Sift.setSieve ["Science".toList] = [((6 : Int), 0, ["science".toList])] ∧
    Sift.groupFound (Sift.toLowerStr "science stuff".toList) ["science".toList] = true ∧
    Sift.siftItem Sift.copyConfig (Sift.setSieve ["Science".toList])
      "science stuff".toList = [] := by
  decide

/-- C2, amended: in link mode one link action is performed for every
satisfying pattern group, in table order (evaluation continues past the first
match, so one item can be linked under several destination folders); in copy
mode no action at all is performed, because `siftItem` never consults the
copy flag. -/
theorem claim_C2 :
    ∀ (table : List Sift.TMapping) (item : Sift.Str),
      Sift.siftItem Sift.linkConfig table item =
        ((table.filter fun m => Sift.groupFound (Sift.toLowerStr item) m.2.2).map
          fun m => Sift.SiftAction.linkTo m.2.1) ∧
      Sift.siftItem Sift.copyConfig table item = [] := by
  intro table item
  exact ⟨siftLoop_link (Sift.toLowerStr item) table true,
         siftLoop_copy (Sift.toLowerStr item) table true⟩

/-- C3, counterexample: a group whose computed score is `0` IS stored.  The
destination folder name "a" yields the single-word group `a` with score
`1 - 1 = 0`, and that mapping is stored in the table. -/
theorem claim_C3_counterexample :
    ((0 : Int), 0, ["a".toList]) ∈ Sift.setSieve ["a".toList] := by
  decide

/-- C3, amended: segments whose trimmed raw text is empty are discarded (so
every stored group is non-empty), and every stored score is nonnegative; but
the discard test is on the trimmed text length before subtracting the word
count, so a group with computed score `0` (a single one-character word) is
stored. -/
theorem claim_C3 :
    ∀ (names : List Sift.Str) (m : Sift.TMapping), m ∈ Sift.setSieve names →
      0 ≤ m.1 ∧ m.2.2 ≠ [] := by
  intro names m hm
  obtain ⟨seg, hne, hw, hs⟩ := exists_seg_of_mem_setSieve hm
  constructor
  · rw [hs]
    have h1 := length_le_sum_length (words_ne_nil hne)
    have h2 := sum_length_splitCompress Sift.isWordDelim (Sift.trimL seg)
    omega
  · rw [hw]
    exact splitCompress_ne_nil _ _

theorem claim_C3_witness :
    ((6 : Int), 0, ["science".toList]) ∈ Sift.setSieve ["Science".toList] ∧
    (0 ≤ (6 : Int) ∧ (["science".toList] : List Sift.Str) ≠ []) :=
  ⟨by decide, claim_C3 ["Science".toList] ((6 : Int), 0, ["science".toList]) (by decide)⟩

/-- C4, counterexample: a word written with a leading `!` is stored verbatim,
`!` included: the sieve folder "!zombie" stores the word `!zombie`, whose
first character is `!`. -/
theorem claim_C4_counterexample :
    Sift.setSieve ["!zombie".toList] = [((6 : Int), 0, ["!zombie".toList])] ∧
    ("!zombie".toList).head? = some '!' := by
  decide

/-- C4, amended: the `!` is NOT stripped before storage (there is no separate
negation flag; the parsed word keeps its leading `!`, as the counterexample
shows); negation is applied at match time: the matcher treats a word whose
first character is `!` as negated and requires that the word minus its first
character (`substr(1)`) does not occur in the item name. -/
theorem claim_C4 :
    (∀ (L rest : Sift.Str), Sift.wordOk L ('!' :: rest) = true ↔ ¬ rest <:+: L) ∧
    Sift.setSieve ["!zombie".toList] = [((6 : Int), 0, ["!zombie".toList])] := by
  constructor
  · intro L rest
    have hr : Sift.wordOk L ('!' :: rest) = !(Sift.findSub rest L) := rfl
    rw [hr, Bool.not_eq_true']
    constructor
    · intro hf hcontra
      rw [(findSub_iff _ _).mpr hcontra] at hf
      cases hf
    · intro h
      cases hb : Sift.findSub rest L
      · rfl
      · exact absurd ((findSub_iff _ _).mp hb) h
  · decide

/-- C5 (confirmed): for every item name and every stored pattern group, the
group is satisfied iff every non-negated word occurs in the lower-cased item
name and no negated word's remainder occurs in it; a group of only negated
words is satisfied exactly when none of the forbidden substrings occur (both
directions of the iff hold with no positive-word requirement). -/
theorem claim_C5 :
    ∀ (names : List Sift.Str) (item : Sift.Str) (m : Sift.TMapping),
      m ∈ Sift.setSieve names →
      (Sift.groupFound (Sift.toLowerStr item) m.2.2 = true ↔
        ((∀ w ∈ m.2.2, w.head? ≠ some '!' → w <:+: Sift.toLowerStr item) ∧
         (∀ w ∈ m.2.2, w.head? = some '!' → ¬ w.tail <:+: Sift.toLowerStr item))) := by
  intro names item m hm
  obtain ⟨seg, hne, hw, _⟩ := exists_seg_of_mem_setSieve hm
  have hgne : m.2.2 ≠ [] := by
    rw [hw]; exact splitCompress_ne_nil _ _
  rw [groupFound_eq_all hgne, all_wordOk_iff]

theorem claim_C5_witness :
    ((6 : Int), 0, ["science".toList]) ∈ Sift.setSieve ["Science Fiction (sci-fi)".toList, "Science".toList] ∧
    (Sift.groupFound (Sift.toLowerStr "Science Fiction".toList) ["science".toList] = true ↔
      ((∀ w ∈ [("science".toList)], w.head? ≠ some '!' → w <:+: Sift.toLowerStr "Science Fiction".toList) ∧
       (∀ w ∈ [("science".toList)], w.head? = some '!' → ¬ w.tail <:+: Sift.toLowerStr "Science Fiction".toList))) :=
  ⟨by decide,
   claim_C5 ["Science Fiction (sci-fi)".toList, "Science".toList] "Science Fiction".toList
     ((6 : Int), 0, ["science".toList]) (by decide)⟩

/-- C6 (confirmed): in move mode at most one move is performed per item: the
result is exactly one move for the FIRST satisfied mapping of the table (the
loop returns immediately after it), and no action when no mapping is
satisfied. -/
theorem claim_C6 :
    ∀ (table : List Sift.TMapping) (item : Sift.Str),
      Sift.siftItem Sift.moveConfig table item =
        match table.find? (fun m => Sift.groupFound (Sift.toLowerStr item) m.2.2) with
        | some m => [Sift.SiftAction.moveTo m.2.1]
        | none => [] := by
  intro table item
  exact siftLoop_move (Sift.toLowerStr item) table true

/-- C7 (confirmed): sieve building is deterministic: the folder list is
sorted before compilation and the pattern table is sorted by the total
lexicographic order (score, then folder index, then group content), so two
enumerations of the same destination folders in any order build identical
path lists and identical pattern tables. -/
theorem claim_C7 :
    ∀ (l1 l2 : List Sift.Str), l1.Perm l2 →
      Sift.setSieve l1 = Sift.setSieve l2 ∧
      Sift.sortedPaths l1 = Sift.sortedPaths l2 ∧
      List.Sorted Sift.mapLe (Sift.setSieve l1) ∧
      List.Sorted (· ≤ ·) (Sift.sortedPaths l1) := by
  intro l1 l2 hperm
  have hpaths : Sift.sortedPaths l1 = Sift.sortedPaths l2 := by
    unfold Sift.sortedPaths
    exact List.eq_of_perm_of_sorted
      (((List.perm_insertionSort _ l1).trans hperm).trans
        (List.perm_insertionSort _ l2).symm)
      (List.sorted_insertionSort _ l1)
      (List.sorted_insertionSort _ l2)
  refine ⟨?_, hpaths, ?_, ?_⟩
  · unfold Sift.setSieve Sift.vMappingOf
    rw [hpaths]
  · exact List.sorted_insertionSort Sift.mapLe _
  · exact List.sorted_insertionSort _ l1

theorem claim_C7_witness :
    Sift.setSieve ["b".toList, "a".toList] = Sift.setSieve ["a".toList, "b".toList] ∧
    Sift.sortedPaths ["b".toList, "a".toList] = Sift.sortedPaths ["a".toList, "b".toList] ∧
    List.Sorted Sift.mapLe (Sift.setSieve ["b".toList, "a".toList]) ∧
    List.Sorted (· ≤ ·) (Sift.sortedPaths ["b".toList, "a".toList]) :=
  claim_C7 ["b".toList, "a".toList] ["a".toList, "b".toList]
    (List.Perm.swap "a".toList "b".toList [])

/-- C8, counterexample: two destination folder names that parse to identical
groups can receive different scores: "a  b" (two spaces) and "a b" both parse
to the group `[a, b]`, but score `4 - 2 = 2` resp. `3 - 2 = 1`, because the
score is computed from the trimmed segment text, not from the parsed words. -/
theorem claim_C8_counterexample :
    (Sift.setSieve ["a  b".toList]).map (fun m => m.2.2) =
      (Sift.setSieve ["a b".toList]).map (fun m => m.2.2) ∧
    ¬ (Sift.setSieve ["a  b".toList]).map (fun m => m.1) =
      (Sift.setSieve ["a b".toList]).map (fun m => m.1) := by
  decide

/-- C8, amended: every stored group's score equals the character length of
the trimmed segment text minus the number of words obtained by splitting that
text on spaces with consecutive spaces collapsed (so the score is a pure
function of the trimmed text, not of the parsed group: names parsing to
identical groups may score differently when their raw texts differ). -/
theorem claim_C8 :
    ∀ (names : List Sift.Str) (m : Sift.TMapping), m ∈ Sift.setSieve names →
      ∃ seg : Sift.Str, Sift.trimL seg ≠ [] ∧
        m.2.2 = Sift.splitCompress Sift.isWordDelim (Sift.trimL seg) ∧
        m.1 = ((Sift.trimL seg).length : Int) - (m.2.2.length : Int) := by
  intro names m hm
  obtain ⟨seg, h1, h2, h3⟩ := exists_seg_of_mem_setSieve hm
  refine ⟨seg, h1, h2, ?_⟩
  rw [h2]
  exact h3

theorem claim_C8_witness :
    ((1 : Int), 0, ["a".toList, "b".toList]) ∈ Sift.setSieve ["a b".toList] ∧
    (∃ seg : Sift.Str, Sift.trimL seg ≠ [] ∧
      (((1 : Int), 0, ["a".toList, "b".toList]) : Sift.TMapping).2.2 =
        Sift.splitCompress Sift.isWordDelim (Sift.trimL seg) ∧
      (((1 : Int), 0, ["a".toList, "b".toList]) : Sift.TMapping).1 =
        ((Sift.trimL seg).length : Int) -
          ((((1 : Int), 0, ["a".toList, "b".toList]) : Sift.TMapping).2.2.length : Int)) :=
  ⟨by decide, claim_C8 ["a b".toList] ((1 : Int), 0, ["a".toList, "b".toList]) (by decide)⟩

/-- C9, counterexample: as total functions the nested evaluation and the
single pass differ at the empty group: the nested loop runs zero outer
iterations and leaves `bFound = false`, while a single pass over zero words
accepts. -/
theorem claim_C9_counterexample :
    Sift.groupFound "x".toList [] ≠ List.all [] (Sift.wordOk "x".toList) := by
  decide

/-- C9, amended: on every NON-empty word-group (and every group stored in a
built table is non-empty) the redundant nested evaluation — an outer loop
that runs once per word and re-checks every word each iteration — equals the
single pass that checks each word exactly once. -/
theorem claim_C9 :
    ∀ (sItemName : Sift.Str) (g : List Sift.Str), g ≠ [] →
      Sift.groupFound sItemName g = g.all (Sift.wordOk sItemName) :=
  fun _ _ h => groupFound_eq_all h

theorem claim_C9_witness :
    (["science".toList] : List Sift.Str) ≠ [] ∧
    Sift.groupFound "x".toList ["science".toList] =
      List.all ["science".toList] (Sift.wordOk "x".toList) :=
  ⟨by decide, claim_C9 "x".toList ["science".toList] (by decide)⟩

/-- C10 (confirmed): every stored word-group is non-empty and every stored
word is a non-empty string, so the accesses `sWord[0]` and `sWord.substr(1)`
of the matcher are within bounds on every built table. -/
theorem claim_C10 :
    ∀ (names : List Sift.Str) (m : Sift.TMapping), m ∈ Sift.setSieve names →
      m.2.2 ≠ [] ∧ ∀ w ∈ m.2.2, w ≠ [] := by
  intro names m hm
  obtain ⟨seg, hne, hw, _⟩ := exists_seg_of_mem_setSieve hm
  constructor
  · rw [hw]
    exact splitCompress_ne_nil _ _
  · rw [hw]
    exact words_ne_nil hne

theorem claim_C10_witness :
    ((13 : Int), 0, ["science".toList, "fiction".toList]) ∈
      Sift.setSieve ["Science Fiction".toList] ∧
    ((["science".toList, "fiction".toList] : List Sift.Str) ≠ [] ∧
      ∀ w ∈ (["science".toList, "fiction".toList] : List Sift.Str), w ≠ []) :=
  ⟨by decide,
   claim_C10 ["Science Fiction".toList]
     ((13 : Int), 0, ["science".toList, "fiction".toList]) (by decide)⟩

end Sift
